import Mathlib

/-!
Verification of the Brainfuck interpreter core (`brainfuck/Base.py`,
class `Interpreter`, together with the concrete symbol tables of
`Nice.py` / `Trolls.py`).

The embedding mirrors `Interpreter.interpret` line by line:

* the Python list `self.array` (30000 ints, values kept in `[0, 256)` by
  `% 256`) is modelled as a total map `Int → Int` together with its length
  `size` (the code only reads/writes `array[ptr]` and takes `len(array)`);
* `self.ptr` is an `Int`, updated with `% len(array)`; Lean's `%` on `Int`
  is Euclidean modulus, which agrees with Python's floor modulus for the
  positive divisors used here;
* `stdin.read(1)` is modelled as an infinite byte stream `input : Nat → Int`
  read off at a running position `inpos` (the spec leaves end-of-stream
  behaviour to the embedding: the reader blocks, i.e. always yields a byte);
* `print(chr(char))` appends the emitted cell value to `output`;
* the interpreter-local variables `stdout`, `jumps`, `index` of one
  `interpret` call are state fields, initialised by `initSt`;
* `handleError(side=...)` followed by `return stdout` is modelled by
  setting `err := some side`; the driving loop `interpret` stops as soon as
  `err` is set (and `execute` returns, with `stdout` as its return value);
* the unbounded `while index < len(code)` loop is driven by explicit fuel.
-/

namespace BF

/-- Which side `handleError` is invoked with (`side='left'` / `side='right'`). -/
inductive Side where
  | left
  | right
  deriving DecidableEq

/-- The eight glyph attributes set by `setChars` (`self.gt`, `self.lt`, ...). -/
structure Chars where
  gt : Char
  lt : Char
  plus : Char
  minus : Char
  period : Char
  comma : Char
  lbracket : Char
  rbracket : Char

/-- The symbol table installed by `NiceInterpreter.setChars`: each of the
eight original Brainfuck characters aliased to itself. -/
def niceChars : Chars := ⟨'>', '<', '+', '-', '.', ',', '[', ']'⟩

/-- Full state of one `interpret` call: the engine fields `array`, `ptr`
(with `size = len(array)`), the input/output channels, and the call-local
variables `stdout`, `jumps`, `index`, plus the recorded `handleError` call. -/
structure St where
  array : Int → Int
  size : Int
  ptr : Int
  input : Nat → Int
  inpos : Nat
  output : List Int
  stdout : Bool
  jumps : Nat → Option Nat
  index : Nat
  err : Option Side

/-- Pointwise update of the tape map: `array[i] = v`. -/
def setCell (a : Int → Int) (i v : Int) : Int → Int :=
  fun j => if j = i then v else a j

/-- Insertion into the `jumps` dict: `jumps[k] = v`. -/
def setJump (m : Nat → Option Nat) (k v : Nat) : Nat → Option Nat :=
  fun n => if n = k then some v else m n

/-- Structural worker for the forward bracket scan: `n` is a recursion
bound kept equal to `code.length - i` by `scanFwd`, so that the `n = 0`
fuel branch is unreachable and the function computes by structural
recursion (this keeps it kernel-reducible, unlike well-founded recursion). -/
def scanFwdAux (lb rb : Char) (code : List Char) : Nat → Nat → Int → Option Nat
  | n, i, p =>
    if p = 0 then some i
    else if h : i + 1 < code.length then
      match n with
      | 0 => none
      | Nat.succ m =>
        let c := code.get ⟨i + 1, h⟩
        scanFwdAux lb rb code m (i + 1)
          (if c = lb then p + 1 else if c = rb then p - 1 else p)
    else none

/-- The forward bracket scan of the `lbracket` branch (lines 175-193 of
`Base.py`): starting from the bracket position `i` with `paren = p` (the
code always starts with `paren = 1`), repeatedly advance `index`, fail with
`none` when `index` reaches `len(code)` (the `handleError(side='left')`
path), otherwise adjust `paren` on `lbracket` / `rbracket` glyphs; return
the position at which `paren` becomes `0`. -/
def scanFwd (lb rb : Char) (code : List Char) (i : Nat) (p : Int) : Option Nat :=
  scanFwdAux lb rb code (code.length - i) i p

/-- The backward bracket scan of the `rbracket` branch (lines 204-222 of
`Base.py`): starting from the bracket position `i` with `paren = p` (the
code always starts with `paren = -1`), repeatedly decrement `index`, fail
with `none` when `index` would go below `0` (the `handleError(side='right')`
path), incrementing `paren` on `lbracket` and decrementing on `rbracket`;
return the position at which `paren` becomes `0`. -/
def scanBwdAux (lb rb : Char) (code : List Char) (i : Nat) (p : Int) : Option Nat :=
  if p = 0 then some i
  else
    match i with
    | 0 => none
    | Nat.succ j =>
      if h : j < code.length then
        let c := code.get ⟨j, h⟩
        scanBwdAux lb rb code j (if c = lb then p + 1 else if c = rb then p - 1 else p)
      else none

/-- One iteration of the `while index < len(code)` dispatch loop of
`Interpreter.interpret` (lines 140-227 of `Base.py`), at state `s`.
The `if/elif` chain is translated condition for condition, in source
order: `gt`, `lt`, `plus`, `minus`, `period`, `comma`, `lbracket`,
`rbracket`, and the final `else: index += 1` for unrecognized characters. -/
def step (ch : Chars) (code : List Char) (s : St) : St :=
  if h : s.index < code.length then
    let c := code.get ⟨s.index, h⟩
    if c = ch.gt then
      { s with ptr := (s.ptr + 1) % s.size, index := s.index + 1 }
    else if c = ch.lt then
      { s with ptr := (s.ptr - 1) % s.size, index := s.index + 1 }
    else if c = ch.plus then
      { s with array := setCell s.array s.ptr ((s.array s.ptr + 1) % 256),
               index := s.index + 1 }
    else if c = ch.minus then
      { s with array := setCell s.array s.ptr ((s.array s.ptr - 1) % 256),
               index := s.index + 1 }
    else if c = ch.period then
      { s with output := s.output ++ [s.array s.ptr], stdout := true,
               index := s.index + 1 }
    else if c = ch.comma then
      { s with array := setCell s.array s.ptr (s.input s.inpos),
               inpos := s.inpos + 1, index := s.index + 1 }
    else if c = ch.lbracket then
      if s.array s.ptr = 0 then
        match s.jumps s.index with
        | some j => { s with index := j + 1 }
        | none =>
          match scanFwd ch.lbracket ch.rbracket code s.index 1 with
          | none => { s with err := some Side.left }
          | some j =>
            { s with jumps := setJump (setJump s.jumps s.index j) j s.index,
                     index := j + 1 }
      else { s with index := s.index + 1 }
    else if c = ch.rbracket then
      if s.array s.ptr ≠ 0 then
        match s.jumps s.index with
        | some j => { s with index := j + 1 }
        | none =>
          match scanBwdAux ch.lbracket ch.rbracket code s.index (-1) with
          | none => { s with err := some Side.right }
          | some j =>
            { s with jumps := setJump (setJump s.jumps s.index j) j s.index,
                     index := j + 1 }
      else { s with index := s.index + 1 }
    else { s with index := s.index + 1 }
  else s

/-- The dispatch loop of `Interpreter.interpret`, driven by fuel: keep
stepping while `index < len(code)` and no `handleError`-return has
happened. -/
def interpret (ch : Chars) (code : List Char) : Nat → St → St
  | 0, s => s
  | Nat.succ fuel, s =>
    if s.err = none ∧ s.index < code.length then
      interpret ch code fuel (step ch code s)
    else s

/-- State at the top of an `interpret` call: `stdout = False`,
`jumps = {}`, `index = 0`, no error, with the engine fields and the input
stream as given. -/
def initSt (array : Int → Int) (size ptr : Int) (input : Nat → Int) : St :=
  { array := array, size := size, ptr := ptr, input := input, inpos := 0,
    output := [], stdout := false, jumps := fun _ => none, index := 0,
    err := none }

/-- `Interpreter.execute` (which just calls `interpret`) on an engine whose
tape is `array` (of length `size`) and pointer is `ptr`, reading bytes from
`input`. The boolean return value of the Python method is the `stdout`
field of the resulting state; `err` records whether (and with which side)
`handleError` was invoked. -/
def execute (ch : Chars) (code : List Char) (fuel : Nat)
    (array : Int → Int) (size ptr : Int) (input : Nat → Int) : St :=
  interpret ch code fuel (initSt array size ptr input)

/-- The tape produced by `Interpreter.reset`: `[0] * 30000`. -/
def resetArray : Int → Int := fun _ => 0

/-- `len(self.array)` after `Interpreter.reset`. -/
def resetSize : Int := 30000

/-- `self.ptr` after `Interpreter.reset`. -/
def resetPtr : Int := 0

/-- `execute` on a freshly reset engine (`reset()` sets `ptr = 0` and
`array = [0] * 30000`). -/
def executeReset (ch : Chars) (code : List Char) (fuel : Nat)
    (input : Nat → Int) : St :=
  execute ch code fuel resetArray resetSize resetPtr input

/-- A zero input stream, for runs whose programs never read input. -/
def zeroInput : Nat → Int := fun _ => 0

/-!
Bracket-depth bookkeeping used to reason about the two scans: `delta`
classifies one character exactly the way both scan loops do (`lbracket`
first, then `rbracket`, else neutral), and `dep code k` is the bracket
depth of the length-`k` prefix of the program.
-/

/-- Contribution of one character to the bracket depth, matching the
`if char == self.lbracket ... elif char == self.rbracket` updates of both
scan loops. -/
def delta (lb rb c : Char) : Int :=
  if c = lb then 1 else if c = rb then -1 else 0

/-- Bracket depth of the first `k` characters of the program. -/
def dep (lb rb : Char) (code : List Char) (k : Nat) : Int :=
  ((code.take k).map (delta lb rb)).sum

/-- Properly balanced bracket structure of a program with respect to the
`lbracket`/`rbracket` glyphs: no prefix closes more brackets than it opens,
and the whole program opens and closes equally many. -/
def Balanced (lb rb : Char) (code : List Char) : Prop :=
  (∀ k, k < code.length + 1 → 0 ≤ dep lb rb code k)
    ∧ dep lb rb code code.length = 0

instance (lb rb : Char) (code : List Char) : Decidable (Balanced lb rb code) := by
  unfold Balanced
  infer_instance

/-- Exhaustive description of the result of one dispatch step on the
current character `c`, one constructor per reachable branch of the
`if/elif` chain of `Interpreter.interpret`. -/
inductive StepShape (ch : Chars) (code : List Char) (s : St) (c : Char) : St → Prop where
  | isGt (hc : c = ch.gt) :
      StepShape ch code s c
        { s with ptr := (s.ptr + 1) % s.size, index := s.index + 1 }
  | isLt (hc : c = ch.lt) :
      StepShape ch code s c
        { s with ptr := (s.ptr - 1) % s.size, index := s.index + 1 }
  | isPlus (hc : c = ch.plus) :
      StepShape ch code s c
        { s with array := setCell s.array s.ptr ((s.array s.ptr + 1) % 256),
                 index := s.index + 1 }
  | isMinus (hc : c = ch.minus) :
      StepShape ch code s c
        { s with array := setCell s.array s.ptr ((s.array s.ptr - 1) % 256),
                 index := s.index + 1 }
  | isPeriod (hc : c = ch.period) :
      StepShape ch code s c
        { s with output := s.output ++ [s.array s.ptr], stdout := true,
                 index := s.index + 1 }
  | isComma (hc : c = ch.comma) :
      StepShape ch code s c
        { s with array := setCell s.array s.ptr (s.input s.inpos),
                 inpos := s.inpos + 1, index := s.index + 1 }
  | lbrSkip (hc : c = ch.lbracket) (hcell : ¬ s.array s.ptr = 0) :
      StepShape ch code s c { s with index := s.index + 1 }
  | lbrMemo (hc : c = ch.lbracket) (hcell : s.array s.ptr = 0) (j : Nat)
      (hj : s.jumps s.index = some j) :
      StepShape ch code s c { s with index := j + 1 }
  | lbrScan (hc : c = ch.lbracket) (hcell : s.array s.ptr = 0)
      (hj : s.jumps s.index = none) (j : Nat)
      (hscan : scanFwd ch.lbracket ch.rbracket code s.index 1 = some j) :
      StepShape ch code s c
        { s with jumps := setJump (setJump s.jumps s.index j) j s.index,
                 index := j + 1 }
  | lbrErr (hc : c = ch.lbracket) (hcell : s.array s.ptr = 0)
      (hj : s.jumps s.index = none)
      (hscan : scanFwd ch.lbracket ch.rbracket code s.index 1 = none) :
      StepShape ch code s c { s with err := some Side.left }
  | rbrSkip (hlb : ¬ c = ch.lbracket) (hc : c = ch.rbracket)
      (hcell : s.array s.ptr = 0) :
      StepShape ch code s c { s with index := s.index + 1 }
  | rbrMemo (hlb : ¬ c = ch.lbracket) (hc : c = ch.rbracket)
      (hcell : ¬ s.array s.ptr = 0) (j : Nat) (hj : s.jumps s.index = some j) :
      StepShape ch code s c { s with index := j + 1 }
  | rbrScan (hlb : ¬ c = ch.lbracket) (hc : c = ch.rbracket)
      (hcell : ¬ s.array s.ptr = 0) (hj : s.jumps s.index = none) (j : Nat)
      (hscan : scanBwdAux ch.lbracket ch.rbracket code s.index (-1) = some j) :
      StepShape ch code s c
        { s with jumps := setJump (setJump s.jumps s.index j) j s.index,
                 index := j + 1 }
  | rbrErr (hlb : ¬ c = ch.lbracket) (hc : c = ch.rbracket)
      (hcell : ¬ s.array s.ptr = 0) (hj : s.jumps s.index = none)
      (hscan : scanBwdAux ch.lbracket ch.rbracket code s.index (-1) = none) :
      StepShape ch code s c { s with err := some Side.right }
  | other (h1 : ¬ c = ch.gt) (h2 : ¬ c = ch.lt) (h3 : ¬ c = ch.plus)
      (h4 : ¬ c = ch.minus) (h5 : ¬ c = ch.period) (h6 : ¬ c = ch.comma)
      (h7 : ¬ c = ch.lbracket) (h8 : ¬ c = ch.rbracket) :
      StepShape ch code s c { s with index := s.index + 1 }

/-- Position `j` holds the `lbracket` partner of the `rbracket` at position
`i`: it lies strictly before `i`, the prefix depth returns at `i + 1` to
the value it had at `j`, and every position strictly between (and `i`
itself) stays strictly deeper. -/
def IsMatch (lb rb : Char) (code : List Char) (j i : Nat) : Prop :=
  j < i ∧ i < code.length
    ∧ dep lb rb code j = dep lb rb code (i + 1)
    ∧ ∀ k, k < i + 1 → j < k → dep lb rb code j < dep lb rb code k

instance (lb rb : Char) (code : List Char) (j i : Nat) :
    Decidable (IsMatch lb rb code j i) := by
  unfold IsMatch
  infer_instance

/-- Modelled from the spec: the backward scan as the claim describes it,
with the depth counter seeded at `-1`, incremented on each LoopClose
(`rbracket`) glyph and decremented on each LoopOpen (`lbracket`) glyph,
terminating when the depth reaches `0`. For comparison with the source's
`scanBwdAux`, which updates the counter the other way around. -/
def scanBwdClaim (lb rb : Char) (code : List Char) (i : Nat) (p : Int) : Option Nat :=
  if p = 0 then some i
  else
    match i with
    | 0 => none
    | Nat.succ j =>
      if h : j < code.length then
        let c := code.get ⟨j, h⟩
        scanBwdClaim lb rb code j (if c = rb then p + 1 else if c = lb then p - 1 else p)
      else none

/-- The eight abstract operations a symbol table maps to glyphs. -/
inductive Op where
  | mvr
  | mvl
  | inc
  | dec
  | out
  | inp
  | lbr
  | rbr
  deriving DecidableEq

/-- The glyph a symbol table assigns to an abstract operation. -/
def glyph (ch : Chars) : Op → Char
  | Op.mvr => ch.gt
  | Op.mvl => ch.lt
  | Op.inc => ch.plus
  | Op.dec => ch.minus
  | Op.out => ch.period
  | Op.inp => ch.comma
  | Op.lbr => ch.lbracket
  | Op.rbr => ch.rbracket

/-- The eight glyphs of a symbol table are pairwise distinct (the spec's
well-formedness requirement on Symbol Tables). -/
def Distinct (ch : Chars) : Prop :=
  ch.gt ≠ ch.lt ∧ ch.gt ≠ ch.plus ∧ ch.gt ≠ ch.minus ∧ ch.gt ≠ ch.period
    ∧ ch.gt ≠ ch.comma ∧ ch.gt ≠ ch.lbracket ∧ ch.gt ≠ ch.rbracket
    ∧ ch.lt ≠ ch.plus ∧ ch.lt ≠ ch.minus ∧ ch.lt ≠ ch.period
    ∧ ch.lt ≠ ch.comma ∧ ch.lt ≠ ch.lbracket ∧ ch.lt ≠ ch.rbracket
    ∧ ch.plus ≠ ch.minus ∧ ch.plus ≠ ch.period ∧ ch.plus ≠ ch.comma
    ∧ ch.plus ≠ ch.lbracket ∧ ch.plus ≠ ch.rbracket
    ∧ ch.minus ≠ ch.period ∧ ch.minus ≠ ch.comma ∧ ch.minus ≠ ch.lbracket
    ∧ ch.minus ≠ ch.rbracket
    ∧ ch.period ≠ ch.comma ∧ ch.period ≠ ch.lbracket ∧ ch.period ≠ ch.rbracket
    ∧ ch.comma ≠ ch.lbracket ∧ ch.comma ≠ ch.rbracket
    ∧ ch.lbracket ≠ ch.rbracket

instance (ch : Chars) : Decidable (Distinct ch) := by
  unfold Distinct
  infer_instance

/-- One of the symbol tables `TrollInterpreter.setChars` can draw: the
second entry of each of `gt_signs`, `lt_signs`, ..., `rbracket_signs`. -/
def trollChars : Chars := ⟨'a', 'd', 'g', 'j', 'm', 'p', 's', 'v'⟩

/-- A symbol table violating glyph distinctness: the glyph `x` is bound to
both MoveRight (`gt`, the earliest operation in dispatch order) and
LoopClose (`rbracket`, the latest). -/
def dupChars : Chars := ⟨'x', '<', '+', '-', '.', ',', '[', 'x'⟩

/-- The same table with the duplicate LoopClose binding moved to a glyph
that does not occur in the test program, realizing the claim's reading in
which `x` acts as MoveRight only. -/
def dupFreeChars : Chars := ⟨'x', '<', '+', '-', '.', ',', '[', '}'⟩

/-- A symbol table binding the glyph `y` to both Output (`period`) and
Input (`comma`), to exercise the priority order between two adjacent
mid-chain operations. -/
def dupOutChars : Chars := ⟨'>', '<', '+', '-', 'y', 'y', '[', ']'⟩

theorem update_eq_delta (lb rb c : Char) (p : Int) :
    (if c = lb then p + 1 else if c = rb then p - 1 else p) = p + delta lb rb c := by
  unfold delta
  split_ifs <;> ring

theorem dep_zero (lb rb : Char) (code : List Char) : dep lb rb code 0 = 0 := rfl

theorem dep_succ (lb rb : Char) (code : List Char) {k : Nat} (h : k < code.length) :
    dep lb rb code (k + 1) = dep lb rb code k + delta lb rb (code.get ⟨k, h⟩) := by
  unfold dep
  have h2 : k < (code.map (delta lb rb)).length := by simpa using h
  rw [List.map_take, List.map_take, List.sum_take_succ _ _ h2]
  simp

theorem dep_of_length_le (lb rb : Char) (code : List Char) {k : Nat}
    (h : code.length ≤ k) : dep lb rb code k = dep lb rb code code.length := by
  unfold dep
  rw [List.take_of_length_le h, List.take_of_length_le (le_refl _)]

theorem neg_one_le_delta (lb rb c : Char) : -1 ≤ delta lb rb c := by
  unfold delta
  split_ifs <;> omega

theorem delta_le_one (lb rb c : Char) : delta lb rb c ≤ 1 := by
  unfold delta
  split_ifs <;> omega

theorem dep_sub_one_le (lb rb : Char) (code : List Char) (k : Nat) :
    dep lb rb code k - 1 ≤ dep lb rb code (k + 1) := by
  by_cases h : k < code.length
  · have := neg_one_le_delta lb rb (code.get ⟨k, h⟩)
    rw [dep_succ lb rb code h]
    omega
  · rw [dep_of_length_le lb rb code (by omega : code.length ≤ k),
      dep_of_length_le lb rb code (by omega : code.length ≤ k + 1)]
    omega

theorem dep_le_add_one (lb rb : Char) (code : List Char) (k : Nat) :
    dep lb rb code (k + 1) ≤ dep lb rb code k + 1 := by
  by_cases h : k < code.length
  · have := delta_le_one lb rb (code.get ⟨k, h⟩)
    rw [dep_succ lb rb code h]
    omega
  · rw [dep_of_length_le lb rb code (by omega : code.length ≤ k),
      dep_of_length_le lb rb code (by omega : code.length ≤ k + 1)]
    omega

/-- Discrete intermediate-value property, downward version: a `ℤ`-valued
walk that never drops by more than one and goes from above `t` to at most
`t` passes through `t`. -/
theorem exists_hit_down (f : Nat → Int) (hf : ∀ k, f k - 1 ≤ f (k + 1)) :
    ∀ n a b t, b - a = n → a ≤ b → t < f a → f b ≤ t →
    ∃ m, a ≤ m ∧ m ≤ b ∧ f m = t := by
  intro n
  induction n with
  | zero =>
    intro a b t hn hab ha hb
    have hEq : a = b := by omega
    subst hEq
    omega
  | succ n ih =>
    intro a b t hn hab ha hb
    have hlt : a < b := by
      rcases Nat.lt_or_ge a b with h | h
      · exact h
      · have : a = b := by omega
        subst this
        omega
    by_cases hc : f (a + 1) ≤ t
    · have h1 := hf a
      have : f (a + 1) = t := by omega
      exact ⟨a + 1, by omega, by omega, this⟩
    · push_neg at hc
      obtain ⟨m, h1, h2, h3⟩ := ih (a + 1) b t (by omega) (by omega) hc hb
      exact ⟨m, by omega, h2, h3⟩

/-- Discrete intermediate-value property, upward version: a `ℤ`-valued walk
that never climbs by more than one and goes from at most `t` to above `t`
passes through `t`. -/
theorem exists_hit_up (f : Nat → Int) (hf : ∀ k, f (k + 1) ≤ f k + 1) :
    ∀ n a b t, b - a = n → a ≤ b → f a ≤ t → t < f b →
    ∃ m, a ≤ m ∧ m ≤ b ∧ f m = t := by
  intro n
  induction n with
  | zero =>
    intro a b t hn hab ha hb
    have hEq : a = b := by omega
    subst hEq
    omega
  | succ n ih =>
    intro a b t hn hab ha hb
    have hlt : a < b := by
      rcases Nat.lt_or_ge a b with h | h
      · exact h
      · have : a = b := by omega
        subst this
        omega
    by_cases hc : t < f (a + 1)
    · have h1 := hf a
      have : f a = t := by omega
      exact ⟨a, le_refl a, by omega, this⟩
    · push_neg at hc
      obtain ⟨m, h1, h2, h3⟩ := ih (a + 1) b t (by omega) (by omega) hc hb
      exact ⟨m, by omega, h2, h3⟩

/-! Unfolding equations for the two scan workers. -/

theorem scanFwdAux_p0 (lb rb : Char) (code : List Char) (n i : Nat) {p : Int}
    (hp : p = 0) : scanFwdAux lb rb code n i p = some i := by
  unfold scanFwdAux
  rw [if_pos hp]

theorem scanFwdAux_bail (lb rb : Char) (code : List Char) (n i : Nat) {p : Int}
    (hp : p ≠ 0) (h : ¬ i + 1 < code.length) :
    scanFwdAux lb rb code n i p = none := by
  unfold scanFwdAux
  rw [if_neg hp, dif_neg h]

theorem scanFwdAux_step (lb rb : Char) (code : List Char) (m i : Nat) {p : Int}
    (hp : p ≠ 0) (h : i + 1 < code.length) :
    scanFwdAux lb rb code (Nat.succ m) i p
      = scanFwdAux lb rb code m (i + 1)
          (p + delta lb rb (code.get ⟨i + 1, h⟩)) := by
  conv_lhs => unfold scanFwdAux
  rw [if_neg hp, dif_pos h]
  dsimp only
  rw [update_eq_delta]

theorem scanBwdAux_p0 (lb rb : Char) (code : List Char) (i : Nat) {p : Int}
    (hp : p = 0) : scanBwdAux lb rb code i p = some i := by
  unfold scanBwdAux
  rw [if_pos hp]

theorem scanBwdAux_zero (lb rb : Char) (code : List Char) {p : Int}
    (hp : p ≠ 0) : scanBwdAux lb rb code 0 p = none := by
  unfold scanBwdAux
  rw [if_neg hp]

theorem scanBwdAux_step (lb rb : Char) (code : List Char) (j : Nat) {p : Int}
    (hp : p ≠ 0) (h : j < code.length) :
    scanBwdAux lb rb code (Nat.succ j) p
      = scanBwdAux lb rb code j (p + delta lb rb (code.get ⟨j, h⟩)) := by
  conv_lhs => unfold scanBwdAux
  rw [if_neg hp]
  dsimp only
  rw [dif_pos h, update_eq_delta]

/-- The forward scan succeeds whenever some later prefix depth returns to
the level that would zero out `paren`. -/
theorem scanFwdAux_isSome (lb rb : Char) (code : List Char) :
    ∀ n i (p : Int), code.length - i = n →
    (∃ m, i ≤ m ∧ m + 1 ≤ code.length ∧
      p + (dep lb rb code (m + 1) - dep lb rb code (i + 1)) = 0) →
    (scanFwdAux lb rb code n i p).isSome := by
  intro n
  induction n with
  | zero =>
    intro i p hn hex
    obtain ⟨m, him, hmlen, hm⟩ := hex
    by_cases hp : p = 0
    · rw [scanFwdAux_p0 lb rb code 0 i hp]
      rfl
    · omega
  | succ n ih =>
    intro i p hn hex
    obtain ⟨m, him, hmlen, hm⟩ := hex
    by_cases hp : p = 0
    · rw [scanFwdAux_p0 lb rb code _ i hp]
      rfl
    · have hmi : i < m := by
        rcases Nat.lt_or_ge i m with h | h
        · exact h
        · have : m = i := by omega
          subst this
          omega
      have hlen : i + 1 < code.length := by omega
      rw [scanFwdAux_step lb rb code n i hp hlen]
      apply ih (i + 1) _ (by omega)
      refine ⟨m, by omega, hmlen, ?_⟩
      have hdel := dep_succ lb rb code hlen
      omega

/-- The backward scan succeeds whenever some earlier prefix depth sits at
the level that would zero out `paren`. -/
theorem scanBwdAux_isSome (lb rb : Char) (code : List Char) :
    ∀ i (p : Int), i ≤ code.length →
    (∃ m, m ≤ i ∧ dep lb rb code m = p + dep lb rb code i) →
    (scanBwdAux lb rb code i p).isSome := by
  intro i
  induction i with
  | zero =>
    intro p hlen hex
    obtain ⟨m, hm0, hm⟩ := hex
    have : m = 0 := by omega
    subst this
    have hp : p = 0 := by omega
    rw [scanBwdAux_p0 lb rb code 0 hp]
    rfl
  | succ j ih =>
    intro p hlen hex
    obtain ⟨m, hmi, hm⟩ := hex
    by_cases hp : p = 0
    · rw [scanBwdAux_p0 lb rb code _ hp]
      rfl
    · have hmj : m ≤ j := by
        rcases Nat.lt_or_ge m (j + 1) with h | h
        · omega
        · have : m = j + 1 := by omega
          subst this
          omega
      have hjlen : j < code.length := by omega
      rw [scanBwdAux_step lb rb code j hp hjlen]
      apply ih _ (by omega)
      refine ⟨m, hmj, ?_⟩
      have hdel := dep_succ lb rb code hjlen
      omega

/-- The backward scan run from position `i` with the depth difference of a
position `j` as `paren` terminates exactly at `j`, provided no position
strictly between `j` and `i` (inclusive of `i`) sits at the depth of `j`. -/
theorem scanBwdAux_exact (lb rb : Char) (code : List Char) :
    ∀ i, i ≤ code.length → ∀ j, j ≤ i →
    (∀ k, k ≤ i → j < k → dep lb rb code k ≠ dep lb rb code j) →
    scanBwdAux lb rb code i (dep lb rb code j - dep lb rb code i) = some j := by
  intro i
  induction i with
  | zero =>
    intro hlen j hj hk
    have : j = 0 := by omega
    subst this
    exact scanBwdAux_p0 lb rb code 0 (by omega)
  | succ i ih =>
    intro hlen j hj hk
    by_cases hp : dep lb rb code j - dep lb rb code (i + 1) = 0
    · have hji : j = i + 1 := by
        by_contra hne
        exact hk (i + 1) (le_refl _) (by omega) (by omega)
      rw [scanBwdAux_p0 lb rb code _ hp, hji]
    · have hji : j ≤ i := by
        rcases Nat.lt_or_ge j (i + 1) with h | h
        · omega
        · have : j = i + 1 := by omega
          subst this
          omega
      have hilen : i < code.length := by omega
      rw [scanBwdAux_step lb rb code i hp hilen]
      have hdel := dep_succ lb rb code hilen
      have harg : dep lb rb code j - dep lb rb code (i + 1)
          + delta lb rb (code.get ⟨i, hilen⟩)
          = dep lb rb code j - dep lb rb code i := by omega
      rw [harg]
      exact ih (by omega) j hji (fun k hki hjk => hk k (by omega) hjk)

/-- In a balanced program, the forward scan started (with `paren = 1`) at
an `lbracket` glyph succeeds. -/
theorem scanFwd_isSome_of_balanced {lb rb : Char} {code : List Char}
    (hbal : Balanced lb rb code) {i : Nat} (hi : i < code.length)
    (hc : code.get ⟨i, hi⟩ = lb) : (scanFwd lb rb code i 1).isSome := by
  unfold scanFwd
  apply scanFwdAux_isSome lb rb code _ i 1 rfl
  have hdel : dep lb rb code (i + 1) = dep lb rb code i + 1 := by
    rw [dep_succ lb rb code hi, hc]
    unfold delta
    rw [if_pos rfl]
  obtain ⟨m, h1, h2, h3⟩ := exists_hit_down (dep lb rb code)
    (dep_sub_one_le lb rb code) (code.length - (i + 1)) (i + 1) code.length
    (dep lb rb code i) rfl (by omega) (by omega)
    (by have := hbal.2; have := hbal.1 i (by omega); omega)
  refine ⟨m - 1, by omega, by omega, ?_⟩
  have hm : m - 1 + 1 = m := by omega
  rw [hm]
  omega

/-- In a balanced program, the backward scan started (with `paren = -1`) at
an `rbracket` glyph succeeds. -/
theorem scanBwd_isSome_of_balanced {lb rb : Char} {code : List Char}
    (hbal : Balanced lb rb code) {i : Nat} (hi : i < code.length)
    (hlb : code.get ⟨i, hi⟩ ≠ lb) (hrb : code.get ⟨i, hi⟩ = rb) :
    (scanBwdAux lb rb code i (-1)).isSome := by
  apply scanBwdAux_isSome lb rb code i (-1) (by omega)
  have hdel : dep lb rb code (i + 1) = dep lb rb code i - 1 := by
    rw [dep_succ lb rb code hi]
    unfold delta
    rw [if_neg hlb, if_pos hrb]
    ring
  obtain ⟨m, h1, h2, h3⟩ := exists_hit_up (dep lb rb code)
    (dep_le_add_one lb rb code) i 0 i (dep lb rb code (i + 1)) (by omega)
    (by omega) (by have := hbal.1 (i + 1) (by omega); rw [dep_zero]; omega)
    (by omega)
  exact ⟨m, h2, by omega⟩

/-- When the instruction pointer has run off the end of the program, the
dispatch loop body is not entered. -/
theorem step_of_not_lt (ch : Chars) (code : List Char) (s : St)
    (h : ¬ s.index < code.length) : step ch code s = s := by
  unfold step
  rw [dif_neg h]

/-- Every dispatch step (with the instruction pointer in range) takes one
of the `StepShape` forms. -/
theorem step_shape (ch : Chars) (code : List Char) (s : St)
    (h : s.index < code.length) :
    StepShape ch code s (code.get ⟨s.index, h⟩) (step ch code s) := by
  unfold step
  rw [dif_pos h]
  dsimp only
  by_cases h1 : code.get ⟨s.index, h⟩ = ch.gt
  · rw [if_pos h1]
    exact .isGt h1
  rw [if_neg h1]
  by_cases h2 : code.get ⟨s.index, h⟩ = ch.lt
  · rw [if_pos h2]
    exact .isLt h2
  rw [if_neg h2]
  by_cases h3 : code.get ⟨s.index, h⟩ = ch.plus
  · rw [if_pos h3]
    exact .isPlus h3
  rw [if_neg h3]
  by_cases h4 : code.get ⟨s.index, h⟩ = ch.minus
  · rw [if_pos h4]
    exact .isMinus h4
  rw [if_neg h4]
  by_cases h5 : code.get ⟨s.index, h⟩ = ch.period
  · rw [if_pos h5]
    exact .isPeriod h5
  rw [if_neg h5]
  by_cases h6 : code.get ⟨s.index, h⟩ = ch.comma
  · rw [if_pos h6]
    exact .isComma h6
  rw [if_neg h6]
  by_cases h7 : code.get ⟨s.index, h⟩ = ch.lbracket
  · rw [if_pos h7]
    by_cases hcell : s.array s.ptr = 0
    · rw [if_pos hcell]
      rcases hj : s.jumps s.index with _ | j
      · rcases hscan : scanFwd ch.lbracket ch.rbracket code s.index 1 with _ | j
        · exact .lbrErr h7 hcell hj hscan
        · exact .lbrScan h7 hcell hj j hscan
      · exact .lbrMemo h7 hcell j hj
    · rw [if_neg hcell]
      exact .lbrSkip h7 hcell
  rw [if_neg h7]
  by_cases h8 : code.get ⟨s.index, h⟩ = ch.rbracket
  · rw [if_pos h8]
    by_cases hcell : s.array s.ptr = 0
    · rw [if_neg (by simpa using hcell)]
      exact .rbrSkip h7 h8 hcell
    · rw [if_pos (by simpa using hcell)]
      rcases hj : s.jumps s.index with _ | j
      · rcases hscan : scanBwdAux ch.lbracket ch.rbracket code s.index (-1) with _ | j
        · exact .rbrErr h7 h8 hcell hj hscan
        · exact .rbrScan h7 h8 hcell hj j hscan
      · exact .rbrMemo h7 h8 hcell j hj
  rw [if_neg h8]
  exact .other h1 h2 h3 h4 h5 h6 h7 h8

/-- On a balanced program, a dispatch step never records an unmatched
bracket error: both scans always succeed. -/
theorem step_err_eq (ch : Chars) (code : List Char)
    (hbal : Balanced ch.lbracket ch.rbracket code) (s : St) :
    (step ch code s).err = s.err := by
  by_cases h : s.index < code.length
  · have hs := step_shape ch code s h
    generalize hstep : step ch code s = t at hs ⊢
    cases hs with
    | lbrErr hc hcell hj hscan =>
      exfalso
      have := scanFwd_isSome_of_balanced hbal h hc
      rw [hscan] at this
      exact Bool.noConfusion this
    | rbrErr hlb hc hcell hj hscan =>
      exfalso
      have := scanBwd_isSome_of_balanced hbal h hlb hc
      rw [hscan] at this
      exact Bool.noConfusion this
    | _ => rfl
  · rw [step_of_not_lt ch code s h]

/-- On a balanced program, the whole dispatch loop never records an
unmatched bracket error. -/
theorem interpret_err_eq (ch : Chars) (code : List Char)
    (hbal : Balanced ch.lbracket ch.rbracket code) :
    ∀ fuel s, (interpret ch code fuel s).err = s.err := by
  intro fuel
  induction fuel with
  | zero => intro s; rfl
  | succ n ih =>
    intro s
    unfold interpret
    split
    · rw [ih (step ch code s), step_err_eq ch code hbal s]
    · rfl

/-!
Claim theorems.
-/

/-- C1: on an engine whose tape is pre-seeded with cell 0 = 5 (all other
cells 0, cursor 0), the program `"[->+<]"` terminates (instruction pointer
past the end, no error) with cell 0 = 0 and cell 1 = 5; and on a freshly
reset engine, `"+[->+<]"` terminates with cell 0 = 0 and cell 1 = 1, the
value cell 0 held just before the loop. -/
theorem c1_move_copy_idiom :
    ((execute niceChars ['[', '-', '>', '+', '<', ']'] 40
        (fun i => if i = 0 then 5 else 0) 30000 0 zeroInput).array 0 = 0
      ∧ (execute niceChars ['[', '-', '>', '+', '<', ']'] 40
        (fun i => if i = 0 then 5 else 0) 30000 0 zeroInput).array 1 = 5
      ∧ (execute niceChars ['[', '-', '>', '+', '<', ']'] 40
        (fun i => if i = 0 then 5 else 0) 30000 0 zeroInput).err = none
      ∧ (execute niceChars ['[', '-', '>', '+', '<', ']'] 40
        (fun i => if i = 0 then 5 else 0) 30000 0 zeroInput).index = 6)
    ∧ ((executeReset niceChars ['+', '[', '-', '>', '+', '<', ']'] 20
        zeroInput).array 0 = 0
      ∧ (executeReset niceChars ['+', '[', '-', '>', '+', '<', ']'] 20
        zeroInput).array 1 = 1
      ∧ (executeReset niceChars ['+', '[', '-', '>', '+', '<', ']'] 20
        zeroInput).err = none
      ∧ (executeReset niceChars ['+', '[', '-', '>', '+', '<', ']'] 20
        zeroInput).index = 7) := by
  decide

/-- C2: on any program whose `lbracket`/`rbracket` glyphs are balanced,
`execute` never invokes the error handler, whatever the initial tape,
cursor, input source and fuel. -/
theorem c2_balanced_no_error (ch : Chars) (code : List Char)
    (hbal : Balanced ch.lbracket ch.rbracket code) (fuel : Nat)
    (array : Int → Int) (size ptr : Int) (input : Nat → Int) :
    (execute ch code fuel array size ptr input).err = none := by
  unfold execute
  rw [interpret_err_eq ch code hbal fuel _]
  rfl

/-- Witness for C2 at the concrete balanced program `"[]"`. -/
theorem c2_balanced_no_error_witness :
    Balanced niceChars.lbracket niceChars.rbracket ['[', ']']
    ∧ (execute niceChars ['[', ']'] 5 resetArray 30000 0 zeroInput).err = none :=
  ⟨by decide,
   c2_balanced_no_error niceChars ['[', ']'] (by decide) 5 resetArray 30000 0
     zeroInput⟩

/-- C3 counterexample: on a freshly reset engine the one-character program
`"]"` does NOT invoke the error handler: cell 0 is 0, so the `rbracket`
branch just falls through (`index += 1`) and `interpret` returns with no
`handleError` call, contradicting the claim that the handler is invoked
with side `right`. -/
theorem c3_counterexample :
    (executeReset niceChars [']'] 5 zeroInput).err = none
    ∧ ¬ (executeReset niceChars [']'] 5 zeroInput).err = some Side.right
    ∧ (executeReset niceChars [']'] 5 zeroInput).index = 1 := by
  decide

/-- C3 amended: from a freshly reset engine, `"["` invokes the handler with
side `left` and returns normally (the loop halts with the accumulated
`False` output flag); `"]"` does not invoke the handler at all (cell 0 is
zero, so the close bracket falls through); the `right`-side handler is
reached only with a nonzero current cell, e.g. by `"+]"`. -/
theorem c3_unmatched_bracket_sides :
    ((executeReset niceChars ['['] 5 zeroInput).err = some Side.left
      ∧ (executeReset niceChars ['['] 5 zeroInput).stdout = false)
    ∧ (executeReset niceChars [']'] 5 zeroInput).err = none
    ∧ (executeReset niceChars ['+', ']'] 5 zeroInput).err = some Side.right := by
  decide

/-- C4 counterexample: in `"++[-]"`, when the LoopClose at position 4 is
executed with cell 0 = 2 ≠ 0 and no memoized partner, the engine's
backward scan terminates at position 2, the matching LoopOpen — but the
scan convention stated in the claim (seed -1, increment on LoopClose,
decrement on LoopOpen) never reaches depth 0 on this input and runs off
the front of the program instead. The actual run completes with no error. -/
theorem c4_counterexample :
    scanBwdAux '[' ']' ['+', '+', '[', '-', ']'] 4 (-1) = some 2
    ∧ IsMatch '[' ']' ['+', '+', '[', '-', ']'] 2 4
    ∧ scanBwdClaim '[' ']' ['+', '+', '[', '-', ']'] 4 (-1) = none
    ∧ (executeReset niceChars ['+', '+', '[', '-', ']'] 30 zeroInput).err = none := by
  decide

/-- C4 amended: whenever a LoopClose is dispatched (the current character
matches `rbracket` and none of the earlier glyphs) with the current cell
nonzero and no memoized partner, the engine scans backward with a depth
counter seeded at -1, incremented on each LoopOpen glyph and decremented
on each LoopClose glyph, terminating when the depth reaches 0 — and the
position where it terminates is the matching LoopOpen: the step resumes at
`j + 1` and memoizes the pairing both ways. -/
theorem c4_backward_scan_finds_match (ch : Chars) (code : List Char) (s : St)
    (h : s.index < code.length)
    (h1 : ¬ code.get ⟨s.index, h⟩ = ch.gt)
    (h2 : ¬ code.get ⟨s.index, h⟩ = ch.lt)
    (h3 : ¬ code.get ⟨s.index, h⟩ = ch.plus)
    (h4 : ¬ code.get ⟨s.index, h⟩ = ch.minus)
    (h5 : ¬ code.get ⟨s.index, h⟩ = ch.period)
    (h6 : ¬ code.get ⟨s.index, h⟩ = ch.comma)
    (hlb : ¬ code.get ⟨s.index, h⟩ = ch.lbracket)
    (hc : code.get ⟨s.index, h⟩ = ch.rbracket)
    (hcell : ¬ s.array s.ptr = 0)
    (hj : s.jumps s.index = none)
    (j : Nat) (hmatch : IsMatch ch.lbracket ch.rbracket code j s.index) :
    scanBwdAux ch.lbracket ch.rbracket code s.index (-1) = some j
    ∧ (step ch code s).index = j + 1
    ∧ (step ch code s).jumps s.index = some j
    ∧ (step ch code s).jumps j = some s.index
    ∧ (step ch code s).err = s.err := by
  obtain ⟨hji, hilen, hdepeq, hdeplt⟩ := hmatch
  have hdel : dep ch.lbracket ch.rbracket code (s.index + 1)
      = dep ch.lbracket ch.rbracket code s.index - 1 := by
    rw [dep_succ ch.lbracket ch.rbracket code h]
    unfold delta
    rw [if_neg hlb, if_pos hc]
    ring
  have hscan : scanBwdAux ch.lbracket ch.rbracket code s.index (-1) = some j := by
    have hp : (-1 : Int) = dep ch.lbracket ch.rbracket code j
        - dep ch.lbracket ch.rbracket code s.index := by omega
    rw [hp]
    exact scanBwdAux_exact ch.lbracket ch.rbracket code s.index (by omega) j
      (by omega)
      (fun k hki hjk => by have := hdeplt k (by omega) hjk; omega)
  refine ⟨hscan, ?_⟩
  have hs := step_shape ch code s h
  generalize hstep : step ch code s = t at hs ⊢
  cases hs with
  | isGt hc' => exact absurd hc' h1
  | isLt hc' => exact absurd hc' h2
  | isPlus hc' => exact absurd hc' h3
  | isMinus hc' => exact absurd hc' h4
  | isPeriod hc' => exact absurd hc' h5
  | isComma hc' => exact absurd hc' h6
  | lbrSkip hc' hcell' => exact absurd hc' hlb
  | lbrMemo hc' hcell' j' hj' => exact absurd hc' hlb
  | lbrScan hc' hcell' hj' j' hscan' => exact absurd hc' hlb
  | lbrErr hc' hcell' hj' hscan' => exact absurd hc' hlb
  | rbrSkip hlb' hc' hcell' => exact absurd hcell' hcell
  | rbrMemo hlb' hc' hcell' j' hj' =>
    rw [hj] at hj'
    exact Option.noConfusion hj'
  | rbrErr hlb' hc' hcell' hj' hscan' =>
    rw [hscan] at hscan'
    exact Option.noConfusion hscan'
  | rbrScan hlb' hc' hcell' hj' j' hscan' =>
    rw [hscan] at hscan'
    have hjj : j' = j := by
      have := Option.some.inj hscan'
      omega
    subst hjj
    refine ⟨rfl, ?_, ?_, rfl⟩
    · unfold setJump
      dsimp only
      rw [if_neg (by omega : ¬ s.index = j'), if_pos rfl]
    · unfold setJump
      dsimp only
      rw [if_pos rfl]
  | other h1' h2' h3' h4' h5' h6' h7' h8' => exact absurd hc h8'

/-- Witness for the C4 amended theorem: the state of `"++[-]"` at its
LoopClose, cell 0 = 1, no memo; the scan lands on the LoopOpen at 2. -/
theorem c4_backward_scan_finds_match_witness :
    scanBwdAux '[' ']' ['+', '+', '[', '-', ']'] 4 (-1) = some 2
    ∧ (step niceChars ['+', '+', '[', '-', ']']
        { array := fun i => if i = 0 then 1 else 0, size := 30000, ptr := 0,
          input := zeroInput, inpos := 0, output := [], stdout := false,
          jumps := fun _ => none, index := 4, err := none }).index = 2 + 1
    ∧ (step niceChars ['+', '+', '[', '-', ']']
        { array := fun i => if i = 0 then 1 else 0, size := 30000, ptr := 0,
          input := zeroInput, inpos := 0, output := [], stdout := false,
          jumps := fun _ => none, index := 4, err := none }).jumps 4 = some 2
    ∧ (step niceChars ['+', '+', '[', '-', ']']
        { array := fun i => if i = 0 then 1 else 0, size := 30000, ptr := 0,
          input := zeroInput, inpos := 0, output := [], stdout := false,
          jumps := fun _ => none, index := 4, err := none }).jumps 2 = some 4
    ∧ (step niceChars ['+', '+', '[', '-', ']']
        { array := fun i => if i = 0 then 1 else 0, size := 30000, ptr := 0,
          input := zeroInput, inpos := 0, output := [], stdout := false,
          jumps := fun _ => none, index := 4, err := none }).err = none :=
  c4_backward_scan_finds_match niceChars ['+', '+', '[', '-', ']']
    { array := fun i => if i = 0 then 1 else 0, size := 30000, ptr := 0,
      input := zeroInput, inpos := 0, output := [], stdout := false,
      jumps := fun _ => none, index := 4, err := none }
    (by decide) (by decide) (by decide) (by decide) (by decide) (by decide)
    (by decide) (by decide) (by decide) (by decide) rfl 2 (by decide)

/-- A dispatch step keeps the invariant that the `stdout` flag is set
exactly when some byte has been emitted this call. -/
theorem step_stdout_iff (ch : Chars) (code : List Char) (s : St)
    (hinv : s.stdout = true ↔ s.output ≠ []) :
    (step ch code s).stdout = true ↔ (step ch code s).output ≠ [] := by
  by_cases h : s.index < code.length
  · have hs := step_shape ch code s h
    generalize hstep : step ch code s = t at hs ⊢
    cases hs with
    | isPeriod hc => simp
    | _ => exact hinv
  · rw [step_of_not_lt ch code s h]
    exact hinv

/-- The whole dispatch loop keeps the `stdout`-iff-output invariant. -/
theorem interpret_stdout_iff (ch : Chars) (code : List Char) :
    ∀ fuel (s : St), (s.stdout = true ↔ s.output ≠ []) →
    ((interpret ch code fuel s).stdout = true
      ↔ (interpret ch code fuel s).output ≠ []) := by
  intro fuel
  induction fuel with
  | zero => intro s hinv; exact hinv
  | succ n ih =>
    intro s hinv
    unfold interpret
    split
    · exact ih (step ch code s) (step_stdout_iff ch code s hinv)
    · exact hinv

/-- If no character of the program is the `period` glyph, a dispatch step
never sets the `stdout` flag. -/
theorem step_stdout_of_no_period (ch : Chars) (code : List Char) (s : St)
    (hnp : ∀ c ∈ code, ¬ c = ch.period) :
    (step ch code s).stdout = s.stdout := by
  by_cases h : s.index < code.length
  · have hs := step_shape ch code s h
    generalize hstep : step ch code s = t at hs ⊢
    cases hs with
    | isPeriod hc =>
      exact absurd hc (hnp (code.get ⟨s.index, h⟩) (code.get_mem _ _))
    | _ => rfl
  · rw [step_of_not_lt ch code s h]

/-- If no character of the program is the `period` glyph, the dispatch
loop never sets the `stdout` flag. -/
theorem interpret_stdout_of_no_period (ch : Chars) (code : List Char)
    (hnp : ∀ c ∈ code, ¬ c = ch.period) :
    ∀ fuel (s : St), (interpret ch code fuel s).stdout = s.stdout := by
  intro fuel
  induction fuel with
  | zero => intro s; rfl
  | succ n ih =>
    intro s
    unfold interpret
    split
    · rw [ih (step ch code s), step_stdout_of_no_period ch code s hnp]
    · rfl

/-- C5: `execute` reports `true` exactly when at least one Output
instruction executed during the call (equivalently: at least one byte was
emitted this call); a program containing no `period` glyph reports
`false`; concretely, `"."` reports `true` and `""` reports `false`. -/
theorem c5_output_flag :
    (∀ (ch : Chars) (code : List Char) (fuel : Nat) (array : Int → Int)
      (size ptr : Int) (input : Nat → Int),
      ((execute ch code fuel array size ptr input).stdout = true
        ↔ (execute ch code fuel array size ptr input).output ≠ []))
    ∧ (∀ (ch : Chars) (code : List Char) (fuel : Nat) (array : Int → Int)
      (size ptr : Int) (input : Nat → Int),
      (∀ c ∈ code, ¬ c = ch.period) →
      (execute ch code fuel array size ptr input).stdout = false)
    ∧ (executeReset niceChars ['.'] 5 zeroInput).stdout = true
    ∧ (executeReset niceChars [] 5 zeroInput).stdout = false := by
  refine ⟨?_, ?_, by decide, by decide⟩
  · intro ch code fuel array size ptr input
    exact interpret_stdout_iff ch code fuel (initSt array size ptr input)
      (by simp [initSt])
  · intro ch code fuel array size ptr input hnp
    exact interpret_stdout_of_no_period ch code hnp fuel
      (initSt array size ptr input)

/-- Witness for C5 at the concrete output-free program `"+"`. -/
theorem c5_output_flag_witness :
    (execute niceChars ['+'] 5 resetArray 30000 0 zeroInput).stdout = false :=
  c5_output_flag.2.1 niceChars ['+'] 5 resetArray 30000 0 zeroInput (by decide)

/-- No dispatch branch ever changes the tape length. -/
theorem step_size_eq (ch : Chars) (code : List Char) (s : St) :
    (step ch code s).size = s.size := by
  by_cases h : s.index < code.length
  · have hs := step_shape ch code s h
    generalize hstep : step ch code s = t at hs ⊢
    cases hs <;> rfl
  · rw [step_of_not_lt ch code s h]

/-- A dispatch step keeps the cursor inside `[0, size)`: the two move
branches reduce modulo the tape length, every other branch leaves the
cursor unchanged. -/
theorem step_ptr_bound (ch : Chars) (code : List Char) (s : St)
    (h0 : 0 < s.size) (hlo : 0 ≤ s.ptr) (hhi : s.ptr < s.size) :
    0 ≤ (step ch code s).ptr ∧ (step ch code s).ptr < s.size := by
  by_cases h : s.index < code.length
  · have hs := step_shape ch code s h
    generalize hstep : step ch code s = t at hs ⊢
    cases hs with
    | isGt hc =>
      exact ⟨Int.emod_nonneg _ (by omega), Int.emod_lt_of_pos _ h0⟩
    | isLt hc =>
      exact ⟨Int.emod_nonneg _ (by omega), Int.emod_lt_of_pos _ h0⟩
    | _ => exact ⟨hlo, hhi⟩
  · rw [step_of_not_lt ch code s h]
    exact ⟨hlo, hhi⟩

/-- The dispatch loop never changes the tape length. -/
theorem interpret_size_eq (ch : Chars) (code : List Char) :
    ∀ fuel (s : St), (interpret ch code fuel s).size = s.size := by
  intro fuel
  induction fuel with
  | zero => intro s; rfl
  | succ n ih =>
    intro s
    unfold interpret
    split
    · rw [ih (step ch code s), step_size_eq ch code s]
    · rfl

/-- The dispatch loop keeps the cursor inside `[0, size)`. -/
theorem interpret_ptr_bound (ch : Chars) (code : List Char) :
    ∀ fuel (s : St), 0 < s.size → 0 ≤ s.ptr → s.ptr < s.size →
    0 ≤ (interpret ch code fuel s).ptr
      ∧ (interpret ch code fuel s).ptr < s.size := by
  intro fuel
  induction fuel with
  | zero => intro s _ hlo hhi; exact ⟨hlo, hhi⟩
  | succ n ih =>
    intro s h0 hlo hhi
    unfold interpret
    split
    · obtain ⟨hlo', hhi'⟩ := step_ptr_bound ch code s h0 hlo hhi
      have hsz := step_size_eq ch code s
      obtain ⟨h1, h2⟩ := ih (step ch code s) (by omega) hlo' (by omega)
      exact ⟨h1, by omega⟩
    · exact ⟨hlo, hhi⟩

/-- C7: over any program, fuel, tape and input, starting from any cursor in
`[0, 30000)` on a 30000-cell tape, the final cursor stays in `[0, 30000)`;
and the movement wraps around: MoveRight at 29999 yields 0, MoveLeft at 0
yields 29999. -/
theorem c7_cursor_wraparound :
    (∀ (ch : Chars) (code : List Char) (fuel : Nat) (array : Int → Int)
      (ptr : Int) (input : Nat → Int),
      0 ≤ ptr → ptr < 30000 →
      0 ≤ (execute ch code fuel array 30000 ptr input).ptr
      ∧ (execute ch code fuel array 30000 ptr input).ptr < 30000)
    ∧ (step niceChars ['>'] (initSt resetArray 30000 29999 zeroInput)).ptr = 0
    ∧ (step niceChars ['<'] (initSt resetArray 30000 0 zeroInput)).ptr = 29999 := by
  refine ⟨?_, by decide, by decide⟩
  intro ch code fuel array ptr input hlo hhi
  exact interpret_ptr_bound ch code fuel (initSt array 30000 ptr input)
    (by norm_num [initSt]) hlo hhi

/-- Witness for C7: two MoveRight steps from cursor 29999 end at cursor 1,
inside the bound. -/
theorem c7_cursor_wraparound_witness :
    0 ≤ (execute niceChars ['>', '>'] 5 resetArray 30000 29999 zeroInput).ptr
    ∧ (execute niceChars ['>', '>'] 5 resetArray 30000 29999 zeroInput).ptr
        < 30000 :=
  c7_cursor_wraparound.1 niceChars ['>', '>'] 5 resetArray 29999 zeroInput
    (by decide) (by decide)

/-- C6: when a dispatch step detects an unmatched bracket (records a
`handleError` side), it changes nothing else: tape, cursor, output flag,
emitted output and input position are exactly those of the failure point;
and once an error is recorded, the dispatch loop returns immediately (any
remaining fuel leaves the state untouched), so `execute` returns with the
output flag accumulated so far and the engine stays usable. -/
theorem c6_error_preserves_state :
    (∀ (ch : Chars) (code : List Char) (s : St) (sd : Side),
      s.err = none → (step ch code s).err = some sd →
      (∀ j, (step ch code s).array j = s.array j)
      ∧ (step ch code s).ptr = s.ptr
      ∧ (step ch code s).stdout = s.stdout
      ∧ (step ch code s).output = s.output
      ∧ (step ch code s).inpos = s.inpos)
    ∧ (∀ (ch : Chars) (code : List Char) (fuel : Nat) (s : St),
      ¬ s.err = none → interpret ch code fuel s = s) := by
  constructor
  · intro ch code s sd hnone herr2
    by_cases h : s.index < code.length
    · have hs := step_shape ch code s h
      generalize hstep : step ch code s = t at hs herr2 ⊢
      cases hs with
      | lbrErr hc hcell hj hscan => exact ⟨fun j => rfl, rfl, rfl, rfl, rfl⟩
      | rbrErr hlb hc hcell hj hscan => exact ⟨fun j => rfl, rfl, rfl, rfl, rfl⟩
      | _ =>
        have h3 : s.err = some sd := herr2
        rw [hnone] at h3
        exact Option.noConfusion h3
    · rw [step_of_not_lt ch code s h] at herr2
      rw [hnone] at herr2
      exact Option.noConfusion herr2
  · intro ch code fuel s herr
    cases fuel with
    | zero => rfl
    | succ n =>
      unfold interpret
      rw [if_neg (fun hcon => herr hcon.1)]

/-- Witness for C6 at the failing program `"["` on a reset engine: the
erroring step leaves cell 0 and the cursor untouched, and one more loop
iteration after the recorded error changes nothing. -/
theorem c6_error_preserves_state_witness :
    ((step niceChars ['['] (initSt resetArray 30000 0 zeroInput)).array 0
      = (initSt resetArray 30000 0 zeroInput).array 0
    ∧ (step niceChars ['['] (initSt resetArray 30000 0 zeroInput)).ptr
      = (initSt resetArray 30000 0 zeroInput).ptr)
    ∧ interpret niceChars ['['] 3
        { initSt resetArray 30000 0 zeroInput with err := some Side.left }
      = { initSt resetArray 30000 0 zeroInput with err := some Side.left } := by
  constructor
  · have h := c6_error_preserves_state.1 niceChars ['[']
      (initSt resetArray 30000 0 zeroInput) Side.left rfl (by decide)
    exact ⟨h.1 0, h.2.1⟩
  · exact c6_error_preserves_state.2 niceChars ['['] 3
      { initSt resetArray 30000 0 zeroInput with err := some Side.left }
      (by decide)

/-- C9 counterexample: the Input operation also mutates a tape cell.
Executing `","` — a program containing neither the `plus` nor the `minus`
glyph — with an input source delivering byte 65 changes cell 0 from 0 to
65, so Increment and Decrement are not the only cell-mutating operations. -/
theorem c9_counterexample :
    ¬ (',' = niceChars.plus) ∧ ¬ (',' = niceChars.minus)
    ∧ (execute niceChars [','] 5 resetArray 30000 0 (fun _ => 65)).array 0 = 65
    ∧ ¬ ((execute niceChars [','] 5 resetArray 30000 0 (fun _ => 65)).array 0
        = resetArray 0) := by
  decide

/-- If no character of the program is the `plus`, `minus` or `comma`
glyph, a dispatch step never changes the tape. -/
theorem step_array_eq_of_no_mut (ch : Chars) (code : List Char) (s : St)
    (hnp : ∀ c ∈ code, ¬ c = ch.plus ∧ ¬ c = ch.minus ∧ ¬ c = ch.comma) :
    (step ch code s).array = s.array := by
  by_cases h : s.index < code.length
  · have hs := step_shape ch code s h
    generalize hstep : step ch code s = t at hs ⊢
    cases hs with
    | isPlus hc =>
      exact absurd hc (hnp (code.get ⟨s.index, h⟩) (code.get_mem _ _)).1
    | isMinus hc =>
      exact absurd hc (hnp (code.get ⟨s.index, h⟩) (code.get_mem _ _)).2.1
    | isComma hc =>
      exact absurd hc (hnp (code.get ⟨s.index, h⟩) (code.get_mem _ _)).2.2
    | _ => rfl
  · rw [step_of_not_lt ch code s h]

/-- If no character of the program is the `plus`, `minus` or `comma`
glyph, the dispatch loop never changes the tape. -/
theorem interpret_array_eq_of_no_mut (ch : Chars) (code : List Char)
    (hnp : ∀ c ∈ code, ¬ c = ch.plus ∧ ¬ c = ch.minus ∧ ¬ c = ch.comma) :
    ∀ fuel (s : St), (interpret ch code fuel s).array = s.array := by
  intro fuel
  induction fuel with
  | zero => intro s; rfl
  | succ n ih =>
    intro s
    unfold interpret
    split
    · rw [ih (step ch code s), step_array_eq_of_no_mut ch code s hnp]
    · rfl

/-- C9 amended: a tape cell changes across a dispatch step only at the
cursor position, and only when the dispatched character is the `plus`,
`minus` or `comma` glyph (Increment, Decrement or Input); consequently a
program containing none of those three glyphs leaves every tape cell of
every run unchanged. -/
theorem c9_cell_mutation_only_at_cursor :
    (∀ (ch : Chars) (code : List Char) (s : St) (j : Int),
      ¬ (step ch code s).array j = s.array j →
      j = s.ptr
      ∧ ∃ h : s.index < code.length,
          (code.get ⟨s.index, h⟩ = ch.plus
            ∨ code.get ⟨s.index, h⟩ = ch.minus
            ∨ code.get ⟨s.index, h⟩ = ch.comma))
    ∧ (∀ (ch : Chars) (code : List Char) (fuel : Nat) (array : Int → Int)
      (size ptr : Int) (input : Nat → Int),
      (∀ c ∈ code, ¬ c = ch.plus ∧ ¬ c = ch.minus ∧ ¬ c = ch.comma) →
      ∀ j, (execute ch code fuel array size ptr input).array j = array j) := by
  constructor
  · intro ch code s j hne
    by_cases h : s.index < code.length
    · have hs := step_shape ch code s h
      generalize hstep : step ch code s = t at hs hne ⊢
      cases hs with
      | isPlus hc =>
        by_cases hj : j = s.ptr
        · exact ⟨hj, h, Or.inl hc⟩
        · exfalso
          apply hne
          show setCell s.array s.ptr ((s.array s.ptr + 1) % 256) j = s.array j
          unfold setCell
          rw [if_neg hj]
      | isMinus hc =>
        by_cases hj : j = s.ptr
        · exact ⟨hj, h, Or.inr (Or.inl hc)⟩
        · exfalso
          apply hne
          show setCell s.array s.ptr ((s.array s.ptr - 1) % 256) j = s.array j
          unfold setCell
          rw [if_neg hj]
      | isComma hc =>
        by_cases hj : j = s.ptr
        · exact ⟨hj, h, Or.inr (Or.inr hc)⟩
        · exfalso
          apply hne
          show setCell s.array s.ptr (s.input s.inpos) j = s.array j
          unfold setCell
          rw [if_neg hj]
      | _ => exact absurd rfl hne
    · rw [step_of_not_lt ch code s h] at hne
      exact absurd rfl hne
  · intro ch code fuel array size ptr input hnp j
    rw [show (execute ch code fuel array size ptr input).array
        = (interpret ch code fuel (initSt array size ptr input)).array from rfl,
      interpret_array_eq_of_no_mut ch code hnp fuel]
    rfl

/-- Witness for C9: the cell-free program `"><[]."` leaves cell 5 at its
initial value, by the second part of the amended theorem. -/
theorem c9_cell_mutation_only_at_cursor_witness :
    (execute niceChars ['>', '<', '[', ']', '.'] 10 resetArray 30000 0
      zeroInput).array 5 = resetArray 5 :=
  c9_cell_mutation_only_at_cursor.2 niceChars ['>', '<', '[', ']', '.'] 10
    resetArray 30000 0 zeroInput (by decide) 5

/-- Under distinct tables, the scans classify the glyph of an operation
identically: only the bracket operations carry bracket weight. -/
theorem delta_glyph (ch1 ch2 : Chars) (h1 : Distinct ch1) (h2 : Distinct ch2)
    (op : Op) :
    delta ch1.lbracket ch1.rbracket (glyph ch1 op)
      = delta ch2.lbracket ch2.rbracket (glyph ch2 op) := by
  obtain ⟨a12, a13, a14, a15, a16, a17, a18, a23, a24, a25, a26, a27, a28,
    a34, a35, a36, a37, a38, a45, a46, a47, a48, a56, a57, a58, a67, a68,
    a78⟩ := h1
  obtain ⟨b12, b13, b14, b15, b16, b17, b18, b23, b24, b25, b26, b27, b28,
    b34, b35, b36, b37, b38, b45, b46, b47, b48, b56, b57, b58, b67, b68,
    b78⟩ := h2
  cases op <;> simp only [glyph] <;> unfold delta
  · rw [if_neg a17, if_neg a18, if_neg b17, if_neg b18]
  · rw [if_neg a27, if_neg a28, if_neg b27, if_neg b28]
  · rw [if_neg a37, if_neg a38, if_neg b37, if_neg b38]
  · rw [if_neg a47, if_neg a48, if_neg b47, if_neg b48]
  · rw [if_neg a57, if_neg a58, if_neg b57, if_neg b58]
  · rw [if_neg a67, if_neg a68, if_neg b67, if_neg b68]
  · rw [if_pos rfl, if_pos rfl]
  · rw [if_neg (Ne.symm a78), if_pos rfl, if_neg (Ne.symm b78), if_pos rfl]

theorem scanFwdAux_zero_fuel (lb rb : Char) (code : List Char) (i : Nat)
    {p : Int} (hp : p ≠ 0) (h : i + 1 < code.length) :
    scanFwdAux lb rb code 0 i p = none := by
  unfold scanFwdAux
  rw [if_neg hp, dif_pos h]

theorem scanBwdAux_oob (lb rb : Char) (code : List Char) (j : Nat) {p : Int}
    (hp : p ≠ 0) (h : ¬ j < code.length) :
    scanBwdAux lb rb code (Nat.succ j) p = none := by
  conv_lhs => unfold scanBwdAux
  rw [if_neg hp]
  dsimp only
  rw [dif_neg h]

/-- The character at a position of a glyph-translated program is the glyph
of the operation there. -/
theorem get_map_glyph (ch : Chars) (ops : List Op) (i : Nat)
    (h' : i < ops.length) (h : i < (ops.map (glyph ch)).length) :
    (ops.map (glyph ch)).get ⟨i, h⟩ = glyph ch (ops.get ⟨i, h'⟩) := by
  simp [List.get_eq_getElem, List.getElem_map]

/-- Under distinct tables, the forward scans of two glyph translations of
the same operation sequence coincide. -/
theorem scanFwdAux_glyph_eq (ch1 ch2 : Chars) (h1 : Distinct ch1)
    (h2 : Distinct ch2) (ops : List Op) :
    ∀ n i (p : Int),
      scanFwdAux ch1.lbracket ch1.rbracket (ops.map (glyph ch1)) n i p
        = scanFwdAux ch2.lbracket ch2.rbracket (ops.map (glyph ch2)) n i p := by
  intro n
  induction n with
  | zero =>
    intro i p
    by_cases hp : p = 0
    · rw [scanFwdAux_p0 _ _ _ _ _ hp, scanFwdAux_p0 _ _ _ _ _ hp]
    · by_cases hlen : i + 1 < ops.length
      · rw [scanFwdAux_zero_fuel _ _ _ _ hp (by simpa using hlen),
          scanFwdAux_zero_fuel _ _ _ _ hp (by simpa using hlen)]
      · rw [scanFwdAux_bail _ _ _ _ _ hp (by simpa using hlen),
          scanFwdAux_bail _ _ _ _ _ hp (by simpa using hlen)]
  | succ n ih =>
    intro i p
    by_cases hp : p = 0
    · rw [scanFwdAux_p0 _ _ _ _ _ hp, scanFwdAux_p0 _ _ _ _ _ hp]
    · by_cases hlen : i + 1 < ops.length
      · rw [scanFwdAux_step _ _ _ n i hp (by simpa using hlen),
          scanFwdAux_step _ _ _ n i hp (by simpa using hlen),
          get_map_glyph ch1 ops (i + 1) (by omega), get_map_glyph ch2 ops (i + 1) (by omega),
          delta_glyph ch1 ch2 h1 h2]
        exact ih (i + 1) _
      · rw [scanFwdAux_bail _ _ _ _ _ hp (by simpa using hlen),
          scanFwdAux_bail _ _ _ _ _ hp (by simpa using hlen)]

/-- Under distinct tables, the backward scans of two glyph translations of
the same operation sequence coincide. -/
theorem scanBwdAux_glyph_eq (ch1 ch2 : Chars) (h1 : Distinct ch1)
    (h2 : Distinct ch2) (ops : List Op) :
    ∀ i (p : Int),
      scanBwdAux ch1.lbracket ch1.rbracket (ops.map (glyph ch1)) i p
        = scanBwdAux ch2.lbracket ch2.rbracket (ops.map (glyph ch2)) i p := by
  intro i
  induction i with
  | zero =>
    intro p
    by_cases hp : p = 0
    · rw [scanBwdAux_p0 _ _ _ _ hp, scanBwdAux_p0 _ _ _ _ hp]
    · rw [scanBwdAux_zero _ _ _ hp, scanBwdAux_zero _ _ _ hp]
  | succ j ih =>
    intro p
    by_cases hp : p = 0
    · rw [scanBwdAux_p0 _ _ _ _ hp, scanBwdAux_p0 _ _ _ _ hp]
    · by_cases hlen : j < ops.length
      · rw [scanBwdAux_step _ _ _ j hp (by simpa using hlen),
          scanBwdAux_step _ _ _ j hp (by simpa using hlen),
          get_map_glyph ch1 ops j hlen, get_map_glyph ch2 ops j hlen,
          delta_glyph ch1 ch2 h1 h2]
        exact ih _
      · rw [scanBwdAux_oob _ _ _ _ hp (by simpa using hlen),
          scanBwdAux_oob _ _ _ _ hp (by simpa using hlen)]

/-- Under distinct tables, the full forward scans coincide. -/
theorem scanFwd_glyph_eq (ch1 ch2 : Chars) (h1 : Distinct ch1)
    (h2 : Distinct ch2) (ops : List Op) (i : Nat) (p : Int) :
    scanFwd ch1.lbracket ch1.rbracket (ops.map (glyph ch1)) i p
      = scanFwd ch2.lbracket ch2.rbracket (ops.map (glyph ch2)) i p := by
  unfold scanFwd
  rw [List.length_map, List.length_map]
  exact scanFwdAux_glyph_eq ch1 ch2 h1 h2 ops (ops.length - i) i p

/-- Under distinct tables, one dispatch step on two glyph translations of
the same operation sequence produces the same state. -/
theorem step_glyph_eq (ch1 ch2 : Chars) (h1 : Distinct ch1) (h2 : Distinct ch2)
    (ops : List Op) (s : St) :
    step ch1 (ops.map (glyph ch1)) s = step ch2 (ops.map (glyph ch2)) s := by
  by_cases h : s.index < ops.length
  case neg =>
    rw [step_of_not_lt ch1 _ s (by simpa using h),
      step_of_not_lt ch2 _ s (by simpa using h)]
  case pos =>
    have hl1 : s.index < (ops.map (glyph ch1)).length := by simpa using h
    have hl2 : s.index < (ops.map (glyph ch2)).length := by simpa using h
    have hd1 := h1
    have hd2 := h2
    obtain ⟨a12, a13, a14, a15, a16, a17, a18, a23, a24, a25, a26, a27, a28,
      a34, a35, a36, a37, a38, a45, a46, a47, a48, a56, a57, a58, a67, a68,
      a78⟩ := hd1
    obtain ⟨b12, b13, b14, b15, b16, b17, b18, b23, b24, b25, b26, b27, b28,
      b34, b35, b36, b37, b38, b45, b46, b47, b48, b56, b57, b58, b67, b68,
      b78⟩ := hd2
    unfold step
    rw [dif_pos hl1, dif_pos hl2]
    dsimp only
    rw [get_map_glyph ch1 ops s.index h hl1, get_map_glyph ch2 ops s.index h hl2]
    generalize ops.get ⟨s.index, h⟩ = op
    cases op with
    | mvr =>
      simp only [glyph]
      rw [if_true,
        if_true]
    | mvl =>
      simp only [glyph]
      rw [if_neg (Ne.symm a12), if_true,
        if_neg (Ne.symm b12), if_true]
    | inc =>
      simp only [glyph]
      rw [if_neg (Ne.symm a13), if_neg (Ne.symm a23),
        if_true, if_neg (Ne.symm b13),
        if_neg (Ne.symm b23), if_true]
    | dec =>
      simp only [glyph]
      rw [if_neg (Ne.symm a14), if_neg (Ne.symm a24), if_neg (Ne.symm a34),
        if_true, if_neg (Ne.symm b14),
        if_neg (Ne.symm b24), if_neg (Ne.symm b34),
        if_true]
    | out =>
      simp only [glyph]
      rw [if_neg (Ne.symm a15), if_neg (Ne.symm a25), if_neg (Ne.symm a35),
        if_neg (Ne.symm a45), if_true,
        if_neg (Ne.symm b15), if_neg (Ne.symm b25), if_neg (Ne.symm b35),
        if_neg (Ne.symm b45), if_true]
    | inp =>
      simp only [glyph]
      rw [if_neg (Ne.symm a16), if_neg (Ne.symm a26), if_neg (Ne.symm a36),
        if_neg (Ne.symm a46), if_neg (Ne.symm a56),
        if_true, if_neg (Ne.symm b16),
        if_neg (Ne.symm b26), if_neg (Ne.symm b36), if_neg (Ne.symm b46),
        if_neg (Ne.symm b56), if_true]
    | lbr =>
      simp only [glyph]
      rw [if_neg (Ne.symm a17), if_neg (Ne.symm a27), if_neg (Ne.symm a37),
        if_neg (Ne.symm a47), if_neg (Ne.symm a57), if_neg (Ne.symm a67),
        if_true,
        if_neg (Ne.symm b17), if_neg (Ne.symm b27), if_neg (Ne.symm b37),
        if_neg (Ne.symm b47), if_neg (Ne.symm b57), if_neg (Ne.symm b67),
        if_true]
      by_cases hcell : s.array s.ptr = 0
      · rw [if_pos hcell, if_pos hcell]
        rcases hj : s.jumps s.index with _ | j
        · rw [scanFwd_glyph_eq ch1 ch2 h1 h2 ops s.index 1]
        · rfl
      · rw [if_neg hcell, if_neg hcell]
    | rbr =>
      simp only [glyph]
      rw [if_neg (Ne.symm a18), if_neg (Ne.symm a28), if_neg (Ne.symm a38),
        if_neg (Ne.symm a48), if_neg (Ne.symm a58), if_neg (Ne.symm a68),
        if_neg a78.symm, if_true,
        if_neg (Ne.symm b18), if_neg (Ne.symm b28), if_neg (Ne.symm b38),
        if_neg (Ne.symm b48), if_neg (Ne.symm b58), if_neg (Ne.symm b68),
        if_neg b78.symm, if_true]
      by_cases hcell : s.array s.ptr ≠ 0
      · rw [if_pos hcell, if_pos hcell]
        rcases hj : s.jumps s.index with _ | j
        · rw [scanBwdAux_glyph_eq ch1 ch2 h1 h2 ops s.index (-1)]
        · rfl
      · rw [if_neg hcell, if_neg hcell]

/-- Under distinct tables, whole runs of two glyph translations of the same
operation sequence coincide. -/
theorem interpret_glyph_eq (ch1 ch2 : Chars) (h1 : Distinct ch1)
    (h2 : Distinct ch2) (ops : List Op) :
    ∀ fuel (s : St),
      interpret ch1 (ops.map (glyph ch1)) fuel s
        = interpret ch2 (ops.map (glyph ch2)) fuel s := by
  intro fuel
  induction fuel with
  | zero => intro s; rfl
  | succ n ih =>
    intro s
    unfold interpret
    by_cases hcond : s.err = none ∧ s.index < ops.length
    · rw [if_pos ⟨hcond.1, by simpa using hcond.2⟩,
        if_pos ⟨hcond.1, by simpa using hcond.2⟩,
        step_glyph_eq ch1 ch2 h1 h2 ops s]
      exact ih (step ch2 (ops.map (glyph ch2)) s)
    · rw [if_neg (fun hcon => hcond ⟨hcon.1, by simpa using hcon.2⟩),
        if_neg (fun hcon => hcond ⟨hcon.1, by simpa using hcon.2⟩)]

/-- C8: two symbol tables with pairwise-distinct glyphs, running the glyph
translations of one and the same operation sequence from equal initial
tape, cursor and input, end in identical tape and cursor states (indeed in
identical whole states). -/
theorem c8_symbol_table_substitution (ch1 ch2 : Chars) (h1 : Distinct ch1)
    (h2 : Distinct ch2) (ops : List Op) (fuel : Nat) (array : Int → Int)
    (size ptr : Int) (input : Nat → Int) :
    (∀ j, (execute ch1 (ops.map (glyph ch1)) fuel array size ptr input).array j
      = (execute ch2 (ops.map (glyph ch2)) fuel array size ptr input).array j)
    ∧ (execute ch1 (ops.map (glyph ch1)) fuel array size ptr input).ptr
      = (execute ch2 (ops.map (glyph ch2)) fuel array size ptr input).ptr := by
  unfold execute
  rw [interpret_glyph_eq ch1 ch2 h1 h2 ops fuel (initSt array size ptr input)]
  exact ⟨fun j => rfl, rfl⟩

/-- Witness for C8: the operation sequence of `"+[-]"` rendered through the
standard table and through a troll table ends with the same cell 0 and the
same cursor. -/
theorem c8_symbol_table_substitution_witness :
    Distinct niceChars ∧ Distinct trollChars
    ∧ (execute niceChars ([Op.inc, Op.lbr, Op.dec, Op.rbr].map (glyph niceChars))
        20 resetArray 30000 0 zeroInput).array 0
      = (execute trollChars ([Op.inc, Op.lbr, Op.dec, Op.rbr].map (glyph trollChars))
        20 resetArray 30000 0 zeroInput).array 0
    ∧ (execute niceChars ([Op.inc, Op.lbr, Op.dec, Op.rbr].map (glyph niceChars))
        20 resetArray 30000 0 zeroInput).ptr
      = (execute trollChars ([Op.inc, Op.lbr, Op.dec, Op.rbr].map (glyph trollChars))
        20 resetArray 30000 0 zeroInput).ptr :=
  ⟨by decide, by decide,
   (c8_symbol_table_substitution niceChars trollChars (by decide) (by decide)
     [Op.inc, Op.lbr, Op.dec, Op.rbr] 20 resetArray 30000 0 zeroInput).1 0,
   (c8_symbol_table_substitution niceChars trollChars (by decide) (by decide)
     [Op.inc, Op.lbr, Op.dec, Op.rbr] 20 resetArray 30000 0 zeroInput).2⟩

/-- C10 counterexample: with `x` bound to both MoveRight and LoopClose,
running `"[x"` (cell 0 = 0) completes with no error and with the cursor
never moved — the `x` occurrence acted as a LoopClose terminating the
forward bracket scan, not as a MoveRight. Under the table where `x` is
MoveRight only, the same program invokes the error handler with side
`left`. So a duplicate-bound glyph does not deterministically act as the
earliest of its operations. -/
theorem c10_counterexample :
    dupChars.gt = 'x' ∧ dupChars.rbracket = 'x'
    ∧ (executeReset dupChars ['[', 'x'] 5 zeroInput).err = none
    ∧ (executeReset dupChars ['[', 'x'] 5 zeroInput).ptr = 0
    ∧ (executeReset dupChars ['[', 'x'] 5 zeroInput).index = 2
    ∧ (executeReset dupFreeChars ['[', 'x'] 5 zeroInput).err = some Side.left := by
  decide

/-- C10 amended: the main dispatch loop resolves a character against the
symbol table in the fixed priority order MoveRight, MoveLeft, Increment,
Decrement, Output, Input, LoopOpen, LoopClose: for each level, a character
equal to that level's glyph and different from all earlier glyphs takes
that level's branch, with no condition at all on the later glyphs — so a
dispatched glyph bound to several operations acts as the earliest of them
(in particular a glyph bound to both MoveRight and LoopClose moves the
cursor right, and one bound to both Output and Input emits a byte and
reads none). However, the bracket-matching scans compare characters only
against the LoopOpen/LoopClose glyphs, so a glyph also bound to an earlier
operation still counts as a bracket inside a scan: in `"[x"` under the
duplicate table the forward scan terminates at the `x`. -/
theorem c10_dispatch_priority :
    (∀ (ch : Chars) (code : List Char) (s : St) (h : s.index < code.length),
      code.get ⟨s.index, h⟩ = ch.gt →
      step ch code s
        = { s with ptr := (s.ptr + 1) % s.size, index := s.index + 1 })
    ∧ (∀ (ch : Chars) (code : List Char) (s : St) (h : s.index < code.length),
      ¬ code.get ⟨s.index, h⟩ = ch.gt →
      code.get ⟨s.index, h⟩ = ch.lt →
      step ch code s
        = { s with ptr := (s.ptr - 1) % s.size, index := s.index + 1 })
    ∧ (∀ (ch : Chars) (code : List Char) (s : St) (h : s.index < code.length),
      ¬ code.get ⟨s.index, h⟩ = ch.gt →
      ¬ code.get ⟨s.index, h⟩ = ch.lt →
      code.get ⟨s.index, h⟩ = ch.plus →
      step ch code s
        = { s with array := setCell s.array s.ptr ((s.array s.ptr + 1) % 256),
                   index := s.index + 1 })
    ∧ (∀ (ch : Chars) (code : List Char) (s : St) (h : s.index < code.length),
      ¬ code.get ⟨s.index, h⟩ = ch.gt →
      ¬ code.get ⟨s.index, h⟩ = ch.lt →
      ¬ code.get ⟨s.index, h⟩ = ch.plus →
      code.get ⟨s.index, h⟩ = ch.minus →
      step ch code s
        = { s with array := setCell s.array s.ptr ((s.array s.ptr - 1) % 256),
                   index := s.index + 1 })
    ∧ (∀ (ch : Chars) (code : List Char) (s : St) (h : s.index < code.length),
      ¬ code.get ⟨s.index, h⟩ = ch.gt →
      ¬ code.get ⟨s.index, h⟩ = ch.lt →
      ¬ code.get ⟨s.index, h⟩ = ch.plus →
      ¬ code.get ⟨s.index, h⟩ = ch.minus →
      code.get ⟨s.index, h⟩ = ch.period →
      step ch code s
        = { s with output := s.output ++ [s.array s.ptr], stdout := true,
                   index := s.index + 1 })
    ∧ (∀ (ch : Chars) (code : List Char) (s : St) (h : s.index < code.length),
      ¬ code.get ⟨s.index, h⟩ = ch.gt →
      ¬ code.get ⟨s.index, h⟩ = ch.lt →
      ¬ code.get ⟨s.index, h⟩ = ch.plus →
      ¬ code.get ⟨s.index, h⟩ = ch.minus →
      ¬ code.get ⟨s.index, h⟩ = ch.period →
      code.get ⟨s.index, h⟩ = ch.comma →
      step ch code s
        = { s with array := setCell s.array s.ptr (s.input s.inpos),
                   inpos := s.inpos + 1, index := s.index + 1 })
    ∧ (∀ (ch : Chars) (code : List Char) (s : St) (h : s.index < code.length),
      ¬ code.get ⟨s.index, h⟩ = ch.gt →
      ¬ code.get ⟨s.index, h⟩ = ch.lt →
      ¬ code.get ⟨s.index, h⟩ = ch.plus →
      ¬ code.get ⟨s.index, h⟩ = ch.minus →
      ¬ code.get ⟨s.index, h⟩ = ch.period →
      ¬ code.get ⟨s.index, h⟩ = ch.comma →
      code.get ⟨s.index, h⟩ = ch.lbracket →
      step ch code s
        = if s.array s.ptr = 0 then
            match s.jumps s.index with
            | some j => { s with index := j + 1 }
            | none =>
              match scanFwd ch.lbracket ch.rbracket code s.index 1 with
              | none => { s with err := some Side.left }
              | some j =>
                { s with jumps := setJump (setJump s.jumps s.index j) j s.index,
                         index := j + 1 }
          else { s with index := s.index + 1 })
    ∧ (∀ (ch : Chars) (code : List Char) (s : St) (h : s.index < code.length),
      ¬ code.get ⟨s.index, h⟩ = ch.gt →
      ¬ code.get ⟨s.index, h⟩ = ch.lt →
      ¬ code.get ⟨s.index, h⟩ = ch.plus →
      ¬ code.get ⟨s.index, h⟩ = ch.minus →
      ¬ code.get ⟨s.index, h⟩ = ch.period →
      ¬ code.get ⟨s.index, h⟩ = ch.comma →
      ¬ code.get ⟨s.index, h⟩ = ch.lbracket →
      code.get ⟨s.index, h⟩ = ch.rbracket →
      step ch code s
        = if s.array s.ptr ≠ 0 then
            match s.jumps s.index with
            | some j => { s with index := j + 1 }
            | none =>
              match scanBwdAux ch.lbracket ch.rbracket code s.index (-1) with
              | none => { s with err := some Side.right }
              | some j =>
                { s with jumps := setJump (setJump s.jumps s.index j) j s.index,
                         index := j + 1 }
          else { s with index := s.index + 1 })
    ∧ scanFwd dupChars.lbracket dupChars.rbracket ['[', 'x'] 0 1 = some 1 := by
  refine ⟨?_, ?_, ?_, ?_, ?_, ?_, ?_, ?_, by decide⟩
  · intro ch code s h hc
    unfold step
    rw [dif_pos h]
    dsimp only
    rw [if_pos hc]
  · intro ch code s h h1 hc
    unfold step
    rw [dif_pos h]
    dsimp only
    rw [if_neg h1, if_pos hc]
  · intro ch code s h h1 h2 hc
    unfold step
    rw [dif_pos h]
    dsimp only
    rw [if_neg h1, if_neg h2, if_pos hc]
  · intro ch code s h h1 h2 h3 hc
    unfold step
    rw [dif_pos h]
    dsimp only
    rw [if_neg h1, if_neg h2, if_neg h3, if_pos hc]
  · intro ch code s h h1 h2 h3 h4 hc
    unfold step
    rw [dif_pos h]
    dsimp only
    rw [if_neg h1, if_neg h2, if_neg h3, if_neg h4, if_pos hc]
  · intro ch code s h h1 h2 h3 h4 h5 hc
    unfold step
    rw [dif_pos h]
    dsimp only
    rw [if_neg h1, if_neg h2, if_neg h3, if_neg h4, if_neg h5, if_pos hc]
  · intro ch code s h h1 h2 h3 h4 h5 h6 hc
    unfold step
    rw [dif_pos h]
    dsimp only
    rw [if_neg h1, if_neg h2, if_neg h3, if_neg h4, if_neg h5, if_neg h6,
      if_pos hc]
  · intro ch code s h h1 h2 h3 h4 h5 h6 h7 hc
    unfold step
    rw [dif_pos h]
    dsimp only
    rw [if_neg h1, if_neg h2, if_neg h3, if_neg h4, if_neg h5, if_neg h6,
      if_neg h7, if_pos hc]

/-- Witness for C10: under `dupChars`, a dispatched `x` (bound to MoveRight
and LoopClose) moves the cursor right; under `dupOutChars`, a dispatched
`y` (bound to Output and Input) sets the output flag and reads no input
byte. -/
theorem c10_dispatch_priority_witness :
    ((step dupChars ['x'] (initSt resetArray 30000 0 zeroInput)).ptr = 1
      ∧ (step dupChars ['x'] (initSt resetArray 30000 0 zeroInput)).index = 1)
    ∧ (step dupOutChars ['y'] (initSt resetArray 30000 0 zeroInput)).stdout
        = true
    ∧ (step dupOutChars ['y'] (initSt resetArray 30000 0 zeroInput)).inpos
        = 0 := by
  constructor
  · have hh := c10_dispatch_priority.1 dupChars ['x']
      (initSt resetArray 30000 0 zeroInput) (by decide) (by decide)
    rw [hh]
    exact ⟨by decide, rfl⟩
  · have hh := c10_dispatch_priority.2.2.2.2.1 dupOutChars ['y']
      (initSt resetArray 30000 0 zeroInput) (by decide) (by decide) (by decide)
      (by decide) (by decide) (by decide)
    rw [hh]
    exact ⟨rfl, rfl⟩

end BF
